import Mathlib

/-!
Verification development for the promisify module (src/promiseFns/promisify.js)
of the bluebird-api repository.

The development contains two shallow embeddings of the source:

* a behavioral model of `promisifyFunction` and `createResolver`: the closure
  state of an adapted function (its captured `fn` and `context` variables, both
  of which the source mutates on invocation) and the effect of each call; and

* a structural model of the bulk path: JavaScript objects are association
  lists of own properties (name, accessor-flag, value) together with the list
  of prototype-chain links that `inheritedDataKeys` walks (the walk stops at
  the forbidden prototypes, so the chain list holds exactly the links the
  source visits).  `promisifyAll`, `internalPromisifyAll`,
  `getFunctionsToPromisify`, `shouldPromisify`, `hasPromisified`,
  `inheritedDataKeys`, `isClass`, `isIdentifier` and `defaultFilter` are
  translated clause by clause.

Machine details that the claims do not touch (argument passing to the wrapped
function, the promise type's scheduling) are abstracted: a call effect records
which function value is applied under which receiver, and a settle action
records how the injected callback settles the future.
-/

set_option maxHeartbeats 1000000

namespace Promisify

/-- JavaScript runtime values for the behavioral model.  Only the distinctions
the source consults exist: truthiness tags and object/function identities. -/
inductive BVal : Type where
  | undefV
  | nullV
  | boolV (b : Bool)
  | numV (n : Int)
  | strV (s : String)
  | objRef (id : Nat)
  | fnRef (id : Nat)
deriving DecidableEq

/-- JavaScript truthiness, as consulted by `err ? ... : ...` (line 85/88) and
`if (dynamicLookupKey)` (line 67). -/
def truthy : BVal → Bool
  | .undefV => false
  | .nullV => false
  | .boolV b => b
  | .numV n => n != 0
  | .strV s => s != ""
  | .objRef _ => true
  | .fnRef _ => true

/-- How the completion callback settles the future: rejection, resolution with
a single value, or resolution with `Bluebird.all(values)` (the future system's
array-combination primitive). -/
inductive SettleAction : Type where
  | rejectA (err : BVal)
  | resolveA (v : BVal)
  | resolveAllA (values : List BVal)
deriving DecidableEq

/-- `createResolver` (lines 83-89): the callback built for an adapted call,
applied to its error argument and the list of remaining arguments.  With
`multiArgs` the source returns `(err, ...values) => err ? reject(err) :
resolve(Bluebird.all(values))`; otherwise `(err, value) => err ? reject(err) :
resolve(value)`, where `value` is the first remaining argument (or undefined
when none is passed). -/
def createResolver (multiArgs : Bool) (err : BVal) (values : List BVal) : SettleAction :=
  if multiArgs then
    if truthy err then .rejectA err else .resolveAllA values
  else
    if truthy err then .rejectA err else .resolveA (values.headD .undefV)

/-- The `context` closure variable of `promisifyFunction`: either the
`USE_THIS` sentinel or an ordinary value (after the sentinel has been
overwritten by `context = this`, or when a fixed context was supplied). -/
inductive CtxV : Type where
  | useThis
  | fixedV (v : BVal)
deriving DecidableEq

/-- The mutable closure state captured by the function returned from
`promisifyFunction` (lines 59-81): the variables `fn` and `context`, both of
which the function body reassigns. -/
structure Closure : Type where
  fn : BVal
  context : CtxV
deriving DecidableEq

/-- What one invocation of an adapted function does before constructing the
future: which function value it applies under which receiver
(`fn.apply(context, [...args, resolver])`, line 74). -/
structure CallEffect : Type where
  appliedFn : BVal
  appliedThis : BVal
deriving DecidableEq

/-- One invocation of the function built by `promisifyFunction` (lines 60-76),
given the property-read function of the ambient heap, the `dynamicLookupKey`
the adapter was built with, the current closure state and the receiver
(`this`) of this invocation.  Follows the body statement by statement:
`if (context === USE_THIS) { context = this; }` overwrites the closure
variable, and `if (dynamicLookupKey) { fn = context[dynamicLookupKey]; }`
overwrites the closure variable `fn` (the guard is string truthiness, so an
empty key performs no lookup).  Returns the new closure state and the call
effect. -/
def promisifiedCall (getProp : BVal → String → BVal) (dynamicLookupKey : Option String)
    (c : Closure) (thisV : BVal) : Closure × CallEffect :=
  let ctx : BVal := match c.context with
    | .useThis => thisV
    | .fixedV v => v
  let fn : BVal := match dynamicLookupKey with
    | some k => if k = "" then c.fn else getProp ctx k
    | none => c.fn
  (⟨fn, .fixedV ctx⟩, ⟨fn, ctx⟩)

/-- A sequence of invocations of one adapted function through the given
receivers, threading the (mutated) closure state; returns the call effects in
order. -/
def promisifiedCalls (getProp : BVal → String → BVal) (dynamicLookupKey : Option String) :
    Closure → List BVal → List CallEffect
  | _, [] => []
  | c, thisV :: rest =>
    let r := promisifiedCall getProp dynamicLookupKey c thisV
    r.2 :: promisifiedCalls getProp dynamicLookupKey r.1 rest

/-- Result of synchronously applying the wrapped function inside the executor:
it either returns (leaving the future pending until the callback fires) or
throws. -/
inductive FnResult : Type where
  | ret
  | thrown (e : BVal)
deriving DecidableEq

/-- Modelled from the spec: the Bluebird promise constructor itself is not
part of src/ (only consumed there).  Per the spec it runs its executor
synchronously and does not capture an exception the executor throws: the
exception propagates to the caller of the constructor. -/
def bluebirdNew (executorRun : Except BVal Unit) : Except BVal Unit :=
  executorRun

/-- Outcome of one call of an adapted function: either an exception propagated
synchronously out of the call, or a pending future was returned (recording
which function was applied under which receiver). -/
inductive CallOutcome : Type where
  | thrownOut (e : BVal)
  | pendingFuture (appliedFn : BVal) (appliedThis : BVal)
deriving DecidableEq

/-- One invocation of an adapted function including the synchronous behavior
of the wrapped function: `promisifiedCall` resolves context and function, then
`new Bluebird((resolve, reject) => ... fn.apply(context, ...))` runs the
executor through `bluebirdNew`. -/
def promisifiedCallRun (getProp : BVal → String → BVal) (dynamicLookupKey : Option String)
    (applyFn : BVal → BVal → FnResult) (c : Closure) (thisV : BVal) : Closure × CallOutcome :=
  let r := promisifiedCall getProp dynamicLookupKey c thisV
  let executorRun : Except BVal Unit :=
    match applyFn r.2.appliedFn r.2.appliedThis with
    | .thrown e => .error e
    | .ret => .ok ()
  match bluebirdNew executorRun with
  | .error e => (r.1, .thrownOut e)
  | .ok _ => (r.1, .pendingFuture r.2.appliedFn r.2.appliedThis)

/-! ## Structural model of the bulk path

Objects are modelled as the list of their own property descriptors plus the
list of prototype-chain links that the `inheritedDataKeys` walk visits (the
walk stops at the chain's end or at one of the three forbidden prototypes, so
links past that point are not represented).  A property descriptor is a pair
(accessor-flag, value): for an accessor property the flag is true and the
value is what its getter yields.  Function values record exactly the data the
source inspects: the `IS_PROMISIFIED` marker, an identity, the own properties
of `fn.prototype` (`none` when `fn.prototype` is undefined, in which case
`Object.getOwnPropertyNames(fn.prototype)` throws and `isClass` catches), the
function's own (static) properties, and whether its source text matches
`THIS_ASSIGNMENT_PATTERN`.  The functions installed by `promisifyFunction`
in the bulk path are represented by the dedicated constructor `adapterFn`
recording the context mode, `dynamicLookupKey` and `multiArgs` they were
built with; such a function always carries the marker (line 78), its
`prototype` has the single own name `"constructor"` and its source text has
no `this.<identifier> =` assignment, so `isClass` is false on it. -/

mutual
inductive JVal : Type where
  | undefV
  | prim (tag : Nat)
  | objV (o : JObj)
  | fn (marked : Bool) (id : Nat) (protoObj : Option JObj) (statics : JObj)
      (srcThisAssign : Bool)
  | adapterFn (useThis : Bool) (dynamicLookupKey : Option String) (multiArgs : Bool)

inductive JObj : Type where
  | mk (own : List (String × Bool × JVal)) (chain : List (List (String × Bool × JVal)))
end

/-- One prototype-chain link: the own property descriptors of one object on
the chain, in `Object.getOwnPropertyNames` order. -/
abbrev Link := List (String × Bool × JVal)

def JObj.own : JObj → Link
  | .mk own _ => own

def JObj.chain : JObj → List Link
  | .mk _ chain => chain

/-- First own descriptor under a name (models
`Object.getOwnPropertyDescriptor`). -/
def lookupA : Link → String → Option (Bool × JVal)
  | [], _ => none
  | (k, p) :: rest, key => if k = key then some p else lookupA rest key

/-- JavaScript assignment `obj[key] = v` on the own properties: overwrite the
existing own property in place, else append a new own data property. -/
def setA : Link → String → JVal → Link
  | [], key, v => [(key, (false, v))]
  | (k, p) :: rest, key, v =>
    if k = key then (k, (false, v)) :: rest else (k, p) :: setA rest key v

/-- In-place mutation of the object stored at a name: the descriptor keeps its
accessor flag, only the referenced value changes (used for the class-recursion
pass, which mutates the function object bound at a key without touching the
property itself). -/
def setValA : Link → String → JVal → Link
  | [], _, _ => []
  | (k, p) :: rest, key, v =>
    if k = key then (k, (p.1, v)) :: rest else (k, p) :: setValA rest key v

def setValLinks : List Link → String → JVal → List Link
  | [], _, _ => []
  | l :: rest, key, v =>
    if (lookupA l key).isSome then setValA l key v :: rest
    else l :: setValLinks rest key v

def lookupLinks : List Link → String → Option (Bool × JVal)
  | [], _ => none
  | l :: rest, key =>
    match lookupA l key with
    | some p => some p
    | none => lookupLinks rest key

/-- Property read through the chain, closest link first (models `obj[key]`). -/
def findProp (o : JObj) (key : String) : Option (Bool × JVal) :=
  lookupLinks (o.own :: o.chain) key

/-- `obj[key]` as a value: undefined when no link holds the name. -/
def getVal (o : JObj) (key : String) : JVal :=
  match findProp o key with
  | some p => p.2
  | none => .undefV

/-- Assignment on the object's own properties. -/
def setOwn (o : JObj) (key : String) (v : JVal) : JObj :=
  .mk (setA o.own key v) o.chain

/-- Mutation of the value referenced at a name: performed at the closest link
holding the name. -/
def updateVal (o : JObj) (key : String) (v : JVal) : JObj :=
  if (lookupA o.own key).isSome then .mk (setValA o.own key v) o.chain
  else .mk o.own (setValLinks o.chain key v)

/-- The per-link part of `inheritedDataKeys` (lines 157-166): for each own
name not yet visited, record it as visited; a non-accessor descriptor adds it
to the found keys, an accessor descriptor does not.  Returns the grown
visited set and the keys found in this link, in encounter order. -/
def idkLink : List String → Link → List String × List String
  | visited, [] => (visited, [])
  | visited, (k, p) :: rest =>
    if k ∈ visited then idkLink visited rest
    else
      let r := idkLink (k :: visited) rest
      (r.1, if p.1 then r.2 else k :: r.2)

/-- The chain loop of `inheritedDataKeys` (lines 147-169): process each link
in order, threading the visited set. -/
def idkChain : List String → List Link → List String
  | _, [] => []
  | visited, link :: rest =>
    let r := idkLink visited link
    r.2 ++ idkChain r.1 rest

/-- `inheritedDataKeys` (lines 142-172): all chain-discoverable candidate
names of an object. -/
def inheritedDataKeys (o : JObj) : List String :=
  idkChain [] (o.own :: o.chain)

/-- First character of the identifier grammar `[a-z$_]` with the `i` flag. -/
def isIdentStart (c : Char) : Bool := c.isAlpha || c = '$' || c = '_'

/-- Continuation characters of the identifier grammar `[a-z$_0-9]` with the
`i` flag. -/
def isIdentRest (c : Char) : Bool := c.isAlpha || c.isDigit || c = '$' || c = '_'

/-- `isIdentifier` (lines 127-129): `IDENTIFIER_REGEX.test(name)` for
`/^[a-z$_][a-z$_0-9]*$/i`. -/
def isIdentifier (s : String) : Bool :=
  match s.toList with
  | [] => false
  | c :: rest => isIdentStart c && rest.all isIdentRest

/-- `typeof v === 'function'`. -/
def typeofFunction : JVal → Bool
  | .fn .. => true
  | .adapterFn .. => true
  | _ => false

/-- `isPromisified` (lines 97-99): reading the `IS_PROMISIFIED` tag off a
value; undefined (hence false) on anything that is not a function produced or
tagged by this system. -/
def isPromisified : JVal → Bool
  | .fn marked .. => marked
  | .adapterFn .. => true
  | _ => false

/-- `hasPromisified` (lines 101-108): inspect the own descriptor at
`key + suffix`; absent means false, an accessor means true, otherwise the
marker of the stored value decides. -/
def hasPromisified (o : JObj) (key sfx : String) : Bool :=
  match lookupA o.own (key ++ sfx) with
  | none => false
  | some p => if p.1 then true else isPromisified p.2

/-- `defaultFilter` (lines 131-135). -/
def defaultFilter (name : String) : Bool :=
  isIdentifier name && (name.toList.headD ' ' != '_') && (name != "constructor")

/-- Caller-supplied bulk filter: `filter(key, fn, obj, defaultVerdict)`. -/
abbrev FilterT := String → JVal → JObj → Bool → Bool

/-- Caller-supplied promisifier: applied to the original function and the
value the default-adapter thunk would build. -/
abbrev PromisifierT := JVal → JVal → JVal

/-- `shouldPromisify` (lines 110-125). -/
def shouldPromisify (key sfx : String) (o : JObj) (filter : Option FilterT) : Bool :=
  let fn := getVal o key
  if !typeofFunction fn then false
  else if isPromisified fn || hasPromisified o key sfx then false
  else
    let passes := defaultFilter key
    let passes :=
      match filter with
      | some f => f key fn o passes
      | none => passes
    passes

/-- `getFunctionsToPromisify` (lines 92-94). -/
def getFunctionsToPromisify (o : JObj) (sfx : String) (filter : Option FilterT) :
    List String :=
  (inheritedDataKeys o).filter (fun key => shouldPromisify key sfx o filter)

/-- The function value built by `promisifyFunction` in the bulk path (lines
47 and 51): context is always the `USE_THIS` sentinel and the candidate key is
the `dynamicLookupKey`. -/
def defaultAdapter (key : String) (multiArgs : Bool) : JVal :=
  .adapterFn true (some key) multiArgs

/-- Loop body of `internalPromisifyAll` (lines 42-55): build the installed
function (through the custom promisifier when one was supplied, re-reading
`obj[key]` from the live object) and assign it at `key + suffix`. -/
def ipaStep (sfx : String) (promisifier : Option PromisifierT) (multiArgs : Bool)
    (acc : JObj) (key : String) : JObj :=
  let promisified :=
    match promisifier with
    | some p => p (getVal acc key) (defaultAdapter key multiArgs)
    | none => defaultAdapter key multiArgs
  setOwn acc (key ++ sfx) promisified

/-- `internalPromisifyAll` (lines 39-56).  Note the source calls
`getFunctionsToPromisify(obj, suffix)` with no third argument (line 40), so
the `filter` parameter this function receives is dropped there (`undefined`),
which `none` renders here. -/
def internalPromisifyAll (o : JObj) (sfx : String) (_filter : Option FilterT)
    (promisifier : Option PromisifierT) (multiArgs : Bool) : JObj :=
  let functionKeys := getFunctionsToPromisify o sfx none
  functionKeys.foldl (ipaStep sfx promisifier multiArgs) o

/-- `isClass` (lines 175-193).  `Object.getOwnPropertyNames(fn.prototype)`
throws when `fn.prototype` is undefined (arrow functions), which the
try/catch converts to false: the `none` branch.  On a function installed by
`promisifyFunction` the computation yields false (its prototype's own names
are exactly `["constructor"]` and its source text contains no
`this.<identifier> =`), rendered directly in the `adapterFn` branch. -/
def isClass : JVal → Bool
  | .fn _ _ protoObj statics srcThisAssign =>
    match protoObj with
    | none => false
    | some p =>
      let keys := p.own.map (·.1)
      let hasMethods := decide (keys.length > 1)
      let hasMethodsOtherThanConstructor :=
        decide (keys.length > 0) &&
          !(decide (keys.length = 1) && (keys.headD "" == "constructor"))
      let hasThisAssignmentAndStaticMethods :=
        srcThisAssign && decide (statics.own.length > 0)
      hasMethods || hasMethodsOtherThanConstructor || hasThisAssignmentAndStaticMethods
  | .adapterFn .. => false
  | _ => false

/-- The per-class conversion of `promisifyAll` (lines 31-32): bulk-convert the
class's `prototype` object and the class value's own static functions with the
same suffix, filter and promisifier; the function object itself is mutated in
place. -/
def convertClass (v : JVal) (sfx : String) (filter : Option FilterT)
    (promisifier : Option PromisifierT) (multiArgs : Bool) : JVal :=
  match v with
  | .fn m id protoObj statics ta =>
    .fn m id (protoObj.map (fun p => internalPromisifyAll p sfx filter promisifier multiArgs))
      (internalPromisifyAll statics sfx filter promisifier multiArgs) ta
  | v => v

/-- Loop body of the class loop of `promisifyAll` (lines 27-34): read
`obj[key]`; when the key is not `constructor` and the value is class-like,
recursively bulk-convert the function object bound there (in place). -/
def classStep (sfx : String) (filter : Option FilterT) (promisifier : Option PromisifierT)
    (multiArgs : Bool) (acc : JObj) (key : String) : JObj :=
  let fn := getVal acc key
  if key != "constructor" && isClass fn then
    updateVal acc key (convertClass fn sfx filter promisifier multiArgs)
  else acc

/-- The class loop of `promisifyAll` (lines 26-34) over an explicit key list. -/
def classFold (sfx : String) (filter : Option FilterT) (promisifier : Option PromisifierT)
    (multiArgs : Bool) (o : JObj) (keys : List String) : JObj :=
  keys.foldl (classStep sfx filter promisifier multiArgs) o

/-- The error thrown for an invalid suffix (line 22). -/
inductive JErr : Type where
  | rangeError (msg : String)

/-- `promisifyAll` (lines 20-37): validate the suffix, run the class loop over
`inheritedDataKeys(obj)`, then bulk-convert the object itself.  The final
`return internalPromisifyAll(obj, ...)` returns the value of a function with
no return statement, i.e. undefined. -/
def promisifyAll (o : JObj) (sfx : String) (filter : Option FilterT)
    (promisifier : Option PromisifierT) (multiArgs : Bool) : Except JErr (JObj × JVal) :=
  if !isIdentifier sfx then
    .error (.rangeError "The suffix should be a string matching [a-z$_][a-z$_0-9]*")
  else
    let o' := classFold sfx filter promisifier multiArgs o (inheritedDataKeys o)
    .ok (internalPromisifyAll o' sfx filter promisifier multiArgs, JVal.undefV)

/-! ## Concrete objects used to evaluate the model -/

/-- The empty object. -/
def emptyO : JObj := .mk [] []

/-- An object with one callback-style method `m`. -/
def demoObj : JObj := .mk [("m", (false, JVal.fn false 7 none emptyO false))] []

/-- `demoObj` after one `promisifyAll` pass with suffix `"Async"`. -/
def demoObj1 : JObj := .mk
  [("m", (false, JVal.fn false 7 none emptyO false)),
   ("mAsync", (false, JVal.adapterFn true (some "m") false))] []

/-- An object with a method `m` and a pre-existing plain data property at the
sibling name `mAsync` (value 42, carrying no marker). -/
def overwriteDemo : JObj := .mk
  [("m", (false, JVal.fn false 1 none emptyO false)),
   ("mAsync", (false, JVal.prim 42))] []

/-- The method `m` owned by the base link of `derivedDemo`. -/
def fnBase : JVal := JVal.fn false 1 none emptyO false

/-- The derived object's own `m`, shadowing the base `m`. -/
def fnDerived : JVal := JVal.fn false 2 none emptyO false

/-- A derived object owning `m` whose prototype link also owns `m`. -/
def derivedDemo : JObj :=
  .mk [("m", (false, fnDerived))] [[("m", (false, fnBase))]]

/-- A class-like constructor value: its prototype owns `constructor` and an
instance method `im`; the value itself owns a static function `st`. -/
def classFn : JVal := JVal.fn false 1
  (some (.mk [("constructor", (false, JVal.undefV)),
              ("im", (false, JVal.fn false 2 none emptyO false))] []))
  (.mk [("st", (false, JVal.fn false 3 none emptyO false))] []) false

/-- An object holding the class-like `classFn` at key `K` and a plain
(non-class-like) function at key `u`. -/
def classDemo : JObj := .mk
  [("K", (false, classFn)), ("u", (false, JVal.fn false 4 none emptyO false))] []

/-! ## Lemmas about the property-list primitives -/

theorem lookupA_setA_self (l : Link) (key : String) (v : JVal) :
    lookupA (setA l key v) key = some (false, v) := by
  induction l with
  | nil => simp [setA, lookupA]
  | cons hd tl ih =>
    obtain ⟨k, p⟩ := hd
    by_cases h : k = key
    · simp [setA, h, lookupA]
    · simp [setA, h, lookupA, ih]

theorem lookupA_setA_ne (l : Link) {key key' : String} (h : key' ≠ key) (v : JVal) :
    lookupA (setA l key v) key' = lookupA l key' := by
  have hne : key ≠ key' := Ne.symm h
  induction l with
  | nil => simp [setA, lookupA, hne]
  | cons hd tl ih =>
    obtain ⟨k, p⟩ := hd
    by_cases hk : k = key
    · subst hk
      simp [setA, lookupA, hne]
    · simp [setA, hk, lookupA, ih]

theorem lookupA_setA_isSome (l : Link) (key key' : String) (v : JVal)
    (h : (lookupA l key').isSome = true) :
    (lookupA (setA l key v) key').isSome = true := by
  by_cases hk : key' = key
  · subst hk; simp [lookupA_setA_self]
  · rw [lookupA_setA_ne l hk]; exact h

theorem lookupA_setValA_ne (l : Link) {key key' : String} (h : key' ≠ key) (v : JVal) :
    lookupA (setValA l key v) key' = lookupA l key' := by
  have hne : key ≠ key' := Ne.symm h
  induction l with
  | nil => simp [setValA]
  | cons hd tl ih =>
    obtain ⟨k, p⟩ := hd
    by_cases hk : k = key
    · subst hk
      simp [setValA, lookupA, hne]
    · simp [setValA, hk, lookupA, ih]

theorem lookupA_setValA_self (l : Link) {key : String} {p : Bool × JVal}
    (h : lookupA l key = some p) (v : JVal) :
    lookupA (setValA l key v) key = some (p.1, v) := by
  induction l with
  | nil => simp [lookupA] at h
  | cons hd tl ih =>
    obtain ⟨k, q⟩ := hd
    by_cases hk : k = key
    · simp only [lookupA, if_pos hk] at h
      cases h
      simp [setValA, if_pos hk, lookupA, hk]
    · simp only [lookupA, if_neg hk] at h
      simp [setValA, hk, lookupA, ih h]

theorem setValA_self (l : Link) {key : String} {p : Bool × JVal}
    (h : lookupA l key = some p) :
    setValA l key p.2 = l := by
  induction l with
  | nil => simp [lookupA] at h
  | cons hd tl ih =>
    obtain ⟨k, q⟩ := hd
    by_cases hk : k = key
    · simp only [lookupA, if_pos hk] at h
      cases h
      simp [setValA, if_pos hk]
    · simp only [lookupA, if_neg hk] at h
      simp [setValA, hk, ih h]

theorem lookupA_eq_none_iff (l : Link) (key : String) :
    lookupA l key = none ↔ key ∉ l.map (·.1) := by
  induction l with
  | nil => simp [lookupA]
  | cons hd tl ih =>
    obtain ⟨k, p⟩ := hd
    by_cases hk : k = key
    · simp [lookupA, hk]
    · simp [lookupA, hk, ih, Ne.symm hk]

theorem lookupLinks_cons (l : Link) (rest : List Link) (key : String) :
    lookupLinks (l :: rest) key =
      match lookupA l key with
      | some p => some p
      | none => lookupLinks rest key := rfl

theorem lookupLinks_setValLinks_ne (ls : List Link) {key key' : String} (h : key' ≠ key)
    (v : JVal) :
    lookupLinks (setValLinks ls key v) key' = lookupLinks ls key' := by
  induction ls with
  | nil => simp [setValLinks]
  | cons l rest ih =>
    by_cases hl : (lookupA l key).isSome
    · simp only [setValLinks, if_pos hl, lookupLinks_cons, lookupA_setValA_ne l h v]
    · simp only [setValLinks, if_neg hl, lookupLinks_cons, ih]

theorem lookupLinks_setValLinks_self (ls : List Link) {key : String} {p : Bool × JVal}
    (h : lookupLinks ls key = some p) (v : JVal) :
    lookupLinks (setValLinks ls key v) key = some (p.1, v) := by
  induction ls with
  | nil => simp [lookupLinks] at h
  | cons l rest ih =>
    cases hq : lookupA l key with
    | some q =>
      have hl : (lookupA l key).isSome = true := by simp [hq]
      simp only [lookupLinks_cons, hq] at h
      cases h
      simp only [setValLinks, if_pos hl, lookupLinks_cons, lookupA_setValA_self l hq v]
    | none =>
      simp only [lookupLinks_cons, hq] at h
      simp only [setValLinks, hq, Option.isSome_none, Bool.false_eq_true, if_false,
        lookupLinks_cons, hq]
      exact ih h

theorem setValLinks_self (ls : List Link) {key : String} {p : Bool × JVal}
    (h : lookupLinks ls key = some p) :
    setValLinks ls key p.2 = ls := by
  induction ls with
  | nil => simp [lookupLinks] at h
  | cons l rest ih =>
    cases hq : lookupA l key with
    | some q =>
      have hl : (lookupA l key).isSome = true := by simp [hq]
      simp only [lookupLinks_cons, hq] at h
      cases h
      simp [setValLinks, if_pos hl, setValA_self l hq]
    | none =>
      simp only [lookupLinks_cons, hq] at h
      simp [setValLinks, hq, ih h]

theorem JObj.mk_own_chain (o : JObj) : JObj.mk o.own o.chain = o := by
  cases o; rfl

theorem JObj.own_mk (own : Link) (chain : List Link) : (JObj.mk own chain).own = own := rfl

theorem JObj.chain_mk (own : Link) (chain : List Link) : (JObj.mk own chain).chain = chain := rfl

theorem findProp_parts (o : JObj) (key : String) :
    findProp o key =
      match lookupA o.own key with
      | some p => some p
      | none => lookupLinks o.chain key := rfl

theorem findProp_mk (own : Link) (chain : List Link) (key : String) :
    findProp (JObj.mk own chain) key =
      match lookupA own key with
      | some p => some p
      | none => lookupLinks chain key := rfl

theorem findProp_updateVal_ne (o : JObj) {key key' : String} (h : key' ≠ key) (v : JVal) :
    findProp (updateVal o key v) key' = findProp o key' := by
  by_cases hl : (lookupA o.own key).isSome
  · simp only [updateVal, if_pos hl, findProp_mk, findProp_parts, JObj.own_mk,
      JObj.chain_mk, lookupA_setValA_ne o.own h v]
  · simp only [updateVal, if_neg hl, findProp_mk, findProp_parts, JObj.own_mk,
      JObj.chain_mk, lookupLinks_setValLinks_ne o.chain h v]

theorem findProp_updateVal_self (o : JObj) {key : String} {p : Bool × JVal}
    (h : findProp o key = some p) (v : JVal) :
    findProp (updateVal o key v) key = some (p.1, v) := by
  by_cases hl : (lookupA o.own key).isSome
  · obtain ⟨q, hq⟩ := Option.isSome_iff_exists.mp hl
    rw [findProp_parts] at h
    simp only [hq] at h
    cases h
    simp only [updateVal, if_pos hl, findProp_mk, JObj.own_mk, JObj.chain_mk,
      lookupA_setValA_self o.own hq v]
  · rw [Option.not_isSome_iff_eq_none] at hl
    rw [findProp_parts] at h
    simp only [hl] at h
    simp only [updateVal, hl, Option.isSome_none, Bool.false_eq_true, if_false,
      findProp_mk, JObj.own_mk, JObj.chain_mk, hl]
    exact lookupLinks_setValLinks_self o.chain h v

theorem updateVal_self (o : JObj) {key : String} {p : Bool × JVal}
    (h : findProp o key = some p) :
    updateVal o key p.2 = o := by
  by_cases hl : (lookupA o.own key).isSome
  · obtain ⟨q, hq⟩ := Option.isSome_iff_exists.mp hl
    rw [findProp_parts] at h
    simp only [hq] at h
    cases h
    simp only [updateVal, if_pos hl, setValA_self o.own hq, JObj.mk_own_chain]
  · rw [Option.not_isSome_iff_eq_none] at hl
    rw [findProp_parts] at h
    simp only [hl] at h
    simp only [updateVal, hl, Option.isSome_none, Bool.false_eq_true, if_false,
      setValLinks_self o.chain h, JObj.mk_own_chain]

theorem getVal_updateVal_ne (o : JObj) {key key' : String} (h : key' ≠ key) (v : JVal) :
    getVal (updateVal o key v) key' = getVal o key' := by
  unfold getVal
  rw [findProp_updateVal_ne o h]

theorem getVal_updateVal_of_found (o : JObj) {key : String} {p : Bool × JVal}
    (h : findProp o key = some p) (v : JVal) :
    getVal (updateVal o key v) key = v := by
  unfold getVal
  rw [findProp_updateVal_self o h]

/-! ## Characterization of `inheritedDataKeys` -/

theorem lookupA_isSome_iff_mem (l : Link) (key : String) :
    (lookupA l key).isSome = true ↔ key ∈ l.map (·.1) := by
  constructor
  · intro h
    by_contra hmem
    rw [← lookupA_eq_none_iff] at hmem
    simp [hmem] at h
  · intro h
    cases hl : lookupA l key with
    | none => rw [lookupA_eq_none_iff] at hl; exact absurd h hl
    | some q => simp

theorem idkLink_fst_cons (vis : List String) (k : String) (pa : Bool) (pv : JVal)
    (tl : Link) :
    (idkLink vis ((k, pa, pv) :: tl)).1 =
      if k ∈ vis then (idkLink vis tl).1 else (idkLink (k :: vis) tl).1 := by
  by_cases hk : k ∈ vis
  · simp [idkLink, hk]
  · simp [idkLink, hk]

theorem idkLink_snd_cons (vis : List String) (k : String) (pa : Bool) (pv : JVal)
    (tl : Link) :
    (idkLink vis ((k, pa, pv) :: tl)).2 =
      if k ∈ vis then (idkLink vis tl).2
      else if pa then (idkLink (k :: vis) tl).2 else k :: (idkLink (k :: vis) tl).2 := by
  by_cases hk : k ∈ vis
  · simp [idkLink, hk]
  · simp [idkLink, hk]

theorem mem_idkLink_fst (vis : List String) (l : Link) (x : String) :
    x ∈ (idkLink vis l).1 ↔ x ∈ vis ∨ x ∈ l.map (·.1) := by
  induction l generalizing vis with
  | nil => simp [idkLink]
  | cons hd tl ih =>
    obtain ⟨k, p⟩ := hd
    by_cases hk : k ∈ vis
    · simp only [idkLink, if_pos hk, List.map_cons, List.mem_cons]
      rw [ih]
      constructor
      · rintro (h | h)
        · exact Or.inl h
        · exact Or.inr (Or.inr h)
      · rintro (h | h | h)
        · exact Or.inl h
        · exact Or.inl (h ▸ hk)
        · exact Or.inr h
    · simp only [idkLink, if_neg hk, List.map_cons, List.mem_cons]
      rw [ih]
      simp only [List.mem_cons]
      tauto

theorem mem_idkLink_snd (vis : List String) (l : Link) (x : String) :
    x ∈ (idkLink vis l).2 ↔ x ∉ vis ∧ ∃ p, lookupA l x = some p ∧ p.1 = false := by
  induction l generalizing vis with
  | nil => simp [idkLink, lookupA]
  | cons hd tl ih =>
    obtain ⟨k, pa, pv⟩ := hd
    rw [idkLink_snd_cons]
    by_cases hk : k ∈ vis
    · rw [if_pos hk, ih]
      by_cases hx : k = x
      · subst hx
        simp [lookupA, hk]
      · simp [lookupA, hx]
    · rw [if_neg hk]
      cases pa with
      | true =>
        rw [if_pos rfl, ih]
        by_cases hx : k = x
        · subst hx
          simp [lookupA, hk]
        · simp only [lookupA, if_neg hx, List.mem_cons]
          constructor
          · rintro ⟨hv, rest⟩
            exact ⟨fun hm => hv (Or.inr hm), rest⟩
          · rintro ⟨hv, rest⟩
            refine ⟨?_, rest⟩
            rintro (h | h)
            · exact hx h.symm
            · exact hv h
      | false =>
        rw [if_neg (by simp)]
        by_cases hx : k = x
        · subst hx
          simp [lookupA, hk]
        · simp only [List.mem_cons, lookupA, if_neg hx]
          rw [ih]
          simp only [List.mem_cons]
          constructor
          · rintro (h | ⟨hv, rest⟩)
            · exact absurd h.symm hx
            · exact ⟨fun hm => hv (Or.inr hm), rest⟩
          · rintro ⟨hv, rest⟩
            right
            refine ⟨?_, rest⟩
            rintro (h | h)
            · exact hx h.symm
            · exact hv h

theorem idkLink_snd_props (vis : List String) (l : Link) :
    (idkLink vis l).2.Nodup ∧ ∀ x ∈ (idkLink vis l).2, x ∉ vis := by
  induction l generalizing vis with
  | nil => simp [idkLink]
  | cons hd tl ih =>
    obtain ⟨k, pa, pv⟩ := hd
    rw [idkLink_snd_cons]
    by_cases hk : k ∈ vis
    · rw [if_pos hk]
      exact ih vis
    · rw [if_neg hk]
      have hrec := ih (k :: vis)
      cases pa with
      | true =>
        rw [if_pos rfl]
        exact ⟨hrec.1, fun x hx hv => hrec.2 x hx (List.mem_cons_of_mem _ hv)⟩
      | false =>
        rw [if_neg (by simp)]
        constructor
        · rw [List.nodup_cons]
          exact ⟨fun hkin => hrec.2 k hkin (List.mem_cons_self _ _), hrec.1⟩
        · intro x hx
          rcases List.mem_cons.mp hx with h | h
          · exact h ▸ hk
          · exact fun hv => hrec.2 x h (List.mem_cons_of_mem _ hv)

theorem mem_idkChain (vis : List String) (ls : List Link) (x : String) :
    x ∈ idkChain vis ls ↔ x ∉ vis ∧ ∃ p, lookupLinks ls x = some p ∧ p.1 = false := by
  induction ls generalizing vis with
  | nil => simp [idkChain, lookupLinks]
  | cons l rest ih =>
    simp only [idkChain, List.mem_append]
    rw [mem_idkLink_snd, ih]
    cases hq : lookupA l x with
    | some q =>
      have hmem : x ∈ l.map (·.1) := (lookupA_isSome_iff_mem l x).mp (by simp [hq])
      have hfst : x ∈ (idkLink vis l).1 := (mem_idkLink_fst vis l x).mpr (Or.inr hmem)
      simp only [lookupLinks_cons, hq]
      constructor
      · rintro (⟨hv, p, hp, hpf⟩ | ⟨hv, _⟩)
        · injection hp with hqp
          subst hqp
          exact ⟨hv, q, rfl, hpf⟩
        · exact absurd hfst hv
      · rintro ⟨hv, p, hp, hpf⟩
        injection hp with hqp
        subst hqp
        exact Or.inl ⟨hv, q, rfl, hpf⟩
    | none =>
      have hmem : x ∉ l.map (·.1) := by
        rw [← lookupA_eq_none_iff]
        exact hq
      simp only [lookupLinks_cons, hq]
      constructor
      · rintro (⟨_, p, hp, _⟩ | ⟨hv, hrest⟩)
        · exact Option.noConfusion hp
        · exact ⟨fun hvv => hv ((mem_idkLink_fst vis l x).mpr (Or.inl hvv)), hrest⟩
      · rintro ⟨hv, hrest⟩
        right
        refine ⟨fun hin => ?_, hrest⟩
        rcases (mem_idkLink_fst vis l x).mp hin with h | h
        · exact hv h
        · exact hmem h

theorem idkChain_props (vis : List String) (ls : List Link) :
    (idkChain vis ls).Nodup ∧ ∀ x ∈ idkChain vis ls, x ∉ vis := by
  induction ls generalizing vis with
  | nil => simp [idkChain]
  | cons l rest ih =>
    simp only [idkChain]
    have h1 := idkLink_snd_props vis l
    have h2 := ih (idkLink vis l).1
    constructor
    · rw [List.nodup_append]
      refine ⟨h1.1, h2.1, fun x hx hx2 => ?_⟩
      have hxin : x ∈ (idkLink vis l).1 := by
        rw [mem_idkLink_fst]
        right
        obtain ⟨_, p, hp, _⟩ := (mem_idkLink_snd vis l x).mp hx
        exact (lookupA_isSome_iff_mem l x).mp (by simp [hp])
      exact h2.2 x hx2 hxin
    · intro x hx
      rcases List.mem_append.mp hx with h | h
      · exact h1.2 x h
      · intro hxvis
        exact h2.2 x h ((mem_idkLink_fst vis l x).mpr (Or.inl hxvis))

theorem mem_inheritedDataKeys (o : JObj) (x : String) :
    x ∈ inheritedDataKeys o ↔ ∃ p, findProp o x = some p ∧ p.1 = false := by
  unfold inheritedDataKeys findProp
  rw [mem_idkChain]
  simp

theorem nodup_inheritedDataKeys (o : JObj) : (inheritedDataKeys o).Nodup :=
  (idkChain_props [] _).1

/-- Appending a fixed suffix to a key is injective (used to relate installed
names `key + suffix` back to their keys). -/
theorem append_cancel_sfx {a b s : String} (h : a ++ s = b ++ s) : a = b := by
  have hd : a.data ++ s.data = b.data ++ s.data := by
    have := congrArg String.data h
    simpa using this
  exact String.ext (List.append_cancel_right hd)

/-! ## Frame and fixpoint lemmas for `internalPromisifyAll` -/

theorem ipaStep_chain (sfx : String) (pm : Option PromisifierT) (m : Bool) (acc : JObj)
    (key : String) : (ipaStep sfx pm m acc key).chain = acc.chain := rfl

theorem ipaStep_own_lookup_ne (sfx : String) (pm : Option PromisifierT) (m : Bool)
    (acc : JObj) (key : String) {n : String} (h : n ≠ key ++ sfx) :
    lookupA (ipaStep sfx pm m acc key).own n = lookupA acc.own n :=
  lookupA_setA_ne acc.own h _

theorem ipaStep_own_isSome (sfx : String) (pm : Option PromisifierT) (m : Bool)
    (acc : JObj) (key n : String) (h : (lookupA acc.own n).isSome = true) :
    (lookupA (ipaStep sfx pm m acc key).own n).isSome = true :=
  lookupA_setA_isSome acc.own (key ++ sfx) n _ h

theorem ipaFold_chain (sfx : String) (pm : Option PromisifierT) (m : Bool)
    (keys : List String) (acc : JObj) :
    (keys.foldl (ipaStep sfx pm m) acc).chain = acc.chain := by
  induction keys generalizing acc with
  | nil => rfl
  | cons a rest ih => rw [List.foldl_cons, ih, ipaStep_chain]

theorem ipaFold_own_lookup_ne (sfx : String) (pm : Option PromisifierT) (m : Bool)
    (keys : List String) (acc : JObj) {n : String} (h : ∀ k ∈ keys, n ≠ k ++ sfx) :
    lookupA (keys.foldl (ipaStep sfx pm m) acc).own n = lookupA acc.own n := by
  induction keys generalizing acc with
  | nil => rfl
  | cons a rest ih =>
    rw [List.foldl_cons, ih _ fun k hk => h k (List.mem_cons_of_mem _ hk),
      ipaStep_own_lookup_ne sfx pm m acc a (h a (List.mem_cons_self _ _))]

theorem ipaFold_own_isSome (sfx : String) (pm : Option PromisifierT) (m : Bool)
    (keys : List String) (acc : JObj) (n : String)
    (h : (lookupA acc.own n).isSome = true) :
    (lookupA (keys.foldl (ipaStep sfx pm m) acc).own n).isSome = true := by
  induction keys generalizing acc with
  | nil => exact h
  | cons a rest ih =>
    rw [List.foldl_cons]
    exact ih _ (ipaStep_own_isSome sfx pm m acc a n h)

theorem ipaStep_none_own_lookup_self (sfx : String) (m : Bool) (acc : JObj)
    (key : String) :
    lookupA (ipaStep sfx none m acc key).own (key ++ sfx)
      = some (false, defaultAdapter key m) :=
  lookupA_setA_self acc.own (key ++ sfx) _

theorem ipaFold_none_own_lookup_self (sfx : String) (m : Bool) (keys : List String) :
    ∀ (acc : JObj) {k : String}, keys.Nodup → k ∈ keys →
      lookupA (keys.foldl (ipaStep sfx none m) acc).own (k ++ sfx)
        = some (false, defaultAdapter k m) := by
  induction keys with
  | nil => intro acc k _ hk; cases hk
  | cons a rest ih =>
    intro acc k hnd hk
    rw [List.nodup_cons] at hnd
    rw [List.foldl_cons]
    rcases List.mem_cons.mp hk with rfl | hmem
    · rw [ipaFold_own_lookup_ne sfx none m rest _ (fun k' hk' heq => by
        cases append_cancel_sfx heq
        exact hnd.1 hk'),
        ipaStep_none_own_lookup_self]
    · exact ih _ hnd.2 hmem

theorem nodup_gftp (o : JObj) (sfx : String) (f : Option FilterT) :
    (getFunctionsToPromisify o sfx f).Nodup :=
  (nodup_inheritedDataKeys o).filter _

theorem IPA_chain (o : JObj) (sfx : String) (f : Option FilterT)
    (pm : Option PromisifierT) (m : Bool) :
    (internalPromisifyAll o sfx f pm m).chain = o.chain :=
  ipaFold_chain sfx pm m _ o

theorem IPA_own_lookup_ne (o : JObj) (sfx : String) (f : Option FilterT)
    (pm : Option PromisifierT) (m : Bool) {n : String}
    (h : ∀ k ∈ getFunctionsToPromisify o sfx none, n ≠ k ++ sfx) :
    lookupA (internalPromisifyAll o sfx f pm m).own n = lookupA o.own n :=
  ipaFold_own_lookup_ne sfx pm m _ o h

theorem IPA_own_lookup_self (o : JObj) (sfx : String) (f : Option FilterT) (m : Bool)
    {k : String} (hk : k ∈ getFunctionsToPromisify o sfx none) :
    lookupA (internalPromisifyAll o sfx f none m).own (k ++ sfx)
      = some (false, defaultAdapter k m) :=
  ipaFold_none_own_lookup_self sfx m _ o (nodup_gftp o sfx none) hk


theorem findProp_IPA_ne (o : JObj) (sfx : String) (f : Option FilterT)
    (pm : Option PromisifierT) (m : Bool) {n : String}
    (h : ∀ k ∈ getFunctionsToPromisify o sfx none, n ≠ k ++ sfx) :
    findProp (internalPromisifyAll o sfx f pm m) n = findProp o n := by
  rw [findProp_parts, findProp_parts, IPA_own_lookup_ne o sfx f pm m h,
    IPA_chain o sfx f pm m]

theorem findProp_IPA_self (o : JObj) (sfx : String) (f : Option FilterT) (m : Bool)
    {k : String} (hk : k ∈ getFunctionsToPromisify o sfx none) :
    findProp (internalPromisifyAll o sfx f none m) (k ++ sfx)
      = some (false, defaultAdapter k m) := by
  rw [findProp_parts, IPA_own_lookup_self o sfx f m hk]

/-! ## Facts about `shouldPromisify` -/

theorem isPromisified_typeof {v : JVal} (h : isPromisified v = true) :
    typeofFunction v = true := by
  cases v <;> simp_all [isPromisified, typeofFunction]

theorem shouldPromisify_congr {o o' : JObj} {key sfx : String}
    (h1 : getVal o key = getVal o' key)
    (h2 : hasPromisified o key sfx = hasPromisified o' key sfx) :
    shouldPromisify key sfx o none = shouldPromisify key sfx o' none := by
  simp only [shouldPromisify, h1, h2]

theorem shouldPromisify_of_marked {o : JObj} {key sfx : String}
    (h : isPromisified (getVal o key) = true) :
    shouldPromisify key sfx o none = false := by
  simp [shouldPromisify, isPromisified_typeof h, h]

theorem shouldPromisify_of_hasPromisified {o : JObj} {key sfx : String}
    (h : hasPromisified o key sfx = true) :
    shouldPromisify key sfx o none = false := by
  cases ht : typeofFunction (getVal o key) <;> simp [shouldPromisify, ht, h]

theorem shouldPromisify_true_typeof {o : JObj} {key sfx : String} {fl : Option FilterT}
    (h : shouldPromisify key sfx o fl = true) :
    typeofFunction (getVal o key) = true := by
  by_cases ht : typeofFunction (getVal o key) = true
  · exact ht
  · rw [Bool.not_eq_true] at ht
    simp [shouldPromisify, ht] at h

/-- After one pass of `internalPromisifyAll`, no candidate key is still
eligible: a second pass has nothing to convert. -/
theorem gftp_IPA_eq_nil (o : JObj) (sfx : String) (f : Option FilterT) (m : Bool) :
    getFunctionsToPromisify (internalPromisifyAll o sfx f none m) sfx none = [] := by
  unfold getFunctionsToPromisify
  rw [List.filter_eq_nil_iff]
  intro key hkey
  rw [Bool.not_eq_true]
  by_cases hks : ∃ k ∈ getFunctionsToPromisify o sfx none, key = k ++ sfx
  · obtain ⟨k, hk, rfl⟩ := hks
    have hv : getVal (internalPromisifyAll o sfx f none m) (k ++ sfx)
        = defaultAdapter k m := by
      unfold getVal
      rw [findProp_IPA_self o sfx f m hk]
    exact shouldPromisify_of_marked (by rw [hv]; rfl)
  · push_neg at hks
    have hgv : getVal (internalPromisifyAll o sfx f none m) key = getVal o key := by
      unfold getVal
      rw [findProp_IPA_ne o sfx f none m hks]
    by_cases hK : key ∈ getFunctionsToPromisify o sfx none
    · have hhp : hasPromisified (internalPromisifyAll o sfx f none m) key sfx = true := by
        unfold hasPromisified
        rw [IPA_own_lookup_self o sfx f m hK]
        rfl
      exact shouldPromisify_of_hasPromisified hhp
    · have hmemO : key ∈ inheritedDataKeys o := by
        rw [mem_inheritedDataKeys]
        rw [mem_inheritedDataKeys] at hkey
        rw [← findProp_IPA_ne o sfx f none m hks]
        exact hkey
      have hsp : shouldPromisify key sfx o none = false := by
        by_contra hc
        rw [Bool.not_eq_false] at hc
        exact hK (by
          unfold getFunctionsToPromisify
          rw [List.mem_filter]
          exact ⟨hmemO, hc⟩)
      have hhp2 : hasPromisified (internalPromisifyAll o sfx f none m) key sfx
          = hasPromisified o key sfx := by
        unfold hasPromisified
        rw [IPA_own_lookup_ne o sfx f none m (fun k hk heq => by
          cases append_cancel_sfx heq
          exact hK hk)]
      rw [shouldPromisify_congr hgv hhp2, hsp]

/-- `internalPromisifyAll` is idempotent (with the default promisifier): the
second pass converts nothing. -/
theorem IPA_idem (o : JObj) (sfx : String) (f g : Option FilterT) (m : Bool) :
    internalPromisifyAll (internalPromisifyAll o sfx f none m) sfx g none m
      = internalPromisifyAll o sfx f none m := by
  conv_lhs => rw [internalPromisifyAll]
  rw [gftp_IPA_eq_nil o sfx f m]
  rfl

/-! ## Lemmas about the class loop -/

theorem classFold_cons (sfx : String) (f : Option FilterT) (pm : Option PromisifierT)
    (m : Bool) (o : JObj) (a : String) (rest : List String) :
    classFold sfx f pm m o (a :: rest)
      = classFold sfx f pm m (classStep sfx f pm m o a) rest := rfl

theorem classStep_findProp_ne (sfx : String) (f : Option FilterT)
    (pm : Option PromisifierT) (m : Bool) (acc : JObj) {key key' : String}
    (h : key' ≠ key) :
    findProp (classStep sfx f pm m acc key) key' = findProp acc key' := by
  simp only [classStep]
  split
  · exact findProp_updateVal_ne acc h _
  · rfl

theorem classStep_getVal_ne (sfx : String) (f : Option FilterT)
    (pm : Option PromisifierT) (m : Bool) (acc : JObj) {key key' : String}
    (h : key' ≠ key) :
    getVal (classStep sfx f pm m acc key) key' = getVal acc key' := by
  unfold getVal
  rw [classStep_findProp_ne sfx f pm m acc h]

theorem classFold_findProp_notmem (sfx : String) (f : Option FilterT)
    (pm : Option PromisifierT) (m : Bool) (keys : List String) :
    ∀ (o : JObj) {key : String}, key ∉ keys →
      findProp (classFold sfx f pm m o keys) key = findProp o key := by
  induction keys with
  | nil => intro o key _; rfl
  | cons a rest ih =>
    intro o key hk
    have hka : key ≠ a := fun e => hk (e ▸ List.mem_cons_self a rest)
    rw [classFold_cons, ih _ fun hm => hk (List.mem_cons_of_mem _ hm),
      classStep_findProp_ne sfx f pm m o hka]

theorem classFold_getVal_notmem (sfx : String) (f : Option FilterT)
    (pm : Option PromisifierT) (m : Bool) (keys : List String) (o : JObj) {key : String}
    (hk : key ∉ keys) :
    getVal (classFold sfx f pm m o keys) key = getVal o key := by
  unfold getVal
  rw [classFold_findProp_notmem sfx f pm m keys o hk]

theorem isClass_undef : isClass JVal.undefV = false := rfl

/-- Characterization of the class loop: at each (unduplicated) candidate key,
the resulting value is the recursive conversion exactly when the key is not
`constructor` and the value was class-like; other keys are untouched. -/
theorem classFold_getVal (sfx : String) (f : Option FilterT) (pm : Option PromisifierT)
    (m : Bool) (keys : List String) :
    ∀ (o : JObj) {key : String}, keys.Nodup → key ∈ keys →
      getVal (classFold sfx f pm m o keys) key
        = if key != "constructor" && isClass (getVal o key)
          then convertClass (getVal o key) sfx f pm m else getVal o key := by
  induction keys with
  | nil => intro o key _ hk; cases hk
  | cons a rest ih =>
    intro o key hnd hk
    rw [List.nodup_cons] at hnd
    rw [classFold_cons]
    rcases List.mem_cons.mp hk with rfl | hmem
    · have h1 : getVal (classFold sfx f pm m (classStep sfx f pm m o key) rest) key
          = getVal (classStep sfx f pm m o key) key := by
        unfold getVal
        rw [classFold_findProp_notmem sfx f pm m rest _ hnd.1]
      rw [h1]
      simp only [classStep]
      by_cases hc : (key != "constructor" && isClass (getVal o key)) = true
      · rw [if_pos hc, if_pos hc]
        have hcls : isClass (getVal o key) = true := by
          rw [Bool.and_eq_true] at hc
          exact hc.2
        cases hfp : findProp o key with
        | none =>
          exfalso
          have hu : getVal o key = JVal.undefV := by
            unfold getVal
            rw [hfp]
          rw [hu, isClass_undef] at hcls
          exact Bool.noConfusion hcls
        | some p => exact getVal_updateVal_of_found o hfp _
      · rw [if_neg hc, if_neg hc]
    · have hne : key ≠ a := fun e => hnd.1 (e ▸ hmem)
      rw [ih _ hnd.2 hmem, classStep_getVal_ne sfx f pm m o hne]

theorem convertClass_idem (v : JVal) (sfx : String) (f g : Option FilterT) (m : Bool) :
    convertClass (convertClass v sfx f none m) sfx g none m
      = convertClass v sfx f none m := by
  cases v with
  | fn mk id po st ta =>
    cases po with
    | none =>
      simp only [convertClass, Option.map_none']
      rw [IPA_idem]
    | some p =>
      simp only [convertClass, Option.map_some']
      rw [IPA_idem, IPA_idem]
  | undefV => rfl
  | prim t => rfl
  | objV o => rfl
  | adapterFn a b c => rfl

theorem foldl_fixed {α β : Type _} (f : α → β → α) (acc : α) (l : List β)
    (h : ∀ x ∈ l, f acc x = acc) : l.foldl f acc = acc := by
  induction l with
  | nil => rfl
  | cons a rest ih =>
    rw [List.foldl_cons, h a (List.mem_cons_self _ _)]
    exact ih fun x hx => h x (List.mem_cons_of_mem _ hx)

/-- After one full `promisifyAll` pass, the class loop of a second pass leaves
the object untouched at every candidate key. -/
theorem classStep_fix_after (o : JObj) (sfx : String) (m : Bool) :
    ∀ key ∈ inheritedDataKeys (internalPromisifyAll
        (classFold sfx none none m o (inheritedDataKeys o)) sfx none none m),
      classStep sfx none none m (internalPromisifyAll
        (classFold sfx none none m o (inheritedDataKeys o)) sfx none none m) key
      = internalPromisifyAll (classFold sfx none none m o (inheritedDataKeys o))
          sfx none none m := by
  intro key hkey
  simp only [classStep]
  by_cases hc : (key != "constructor"
      && isClass (getVal (internalPromisifyAll
        (classFold sfx none none m o (inheritedDataKeys o)) sfx none none m) key))
      = true
  case neg => rw [if_neg hc]
  case pos =>
    rw [if_pos hc]
    have hcls : isClass (getVal (internalPromisifyAll
        (classFold sfx none none m o (inheritedDataKeys o)) sfx none none m) key)
        = true := by
      have hc' := hc
      rw [Bool.and_eq_true] at hc'
      exact hc'.2
    have hnotsfx : ∀ k ∈ getFunctionsToPromisify
        (classFold sfx none none m o (inheritedDataKeys o)) sfx none,
        key ≠ k ++ sfx := by
      intro k hk he
      subst he
      have hval : getVal (internalPromisifyAll
          (classFold sfx none none m o (inheritedDataKeys o)) sfx none none m)
          (k ++ sfx) = defaultAdapter k m := by
        unfold getVal
        rw [findProp_IPA_self _ sfx none m hk]
      rw [hval] at hcls
      exact Bool.noConfusion hcls
    have hgv : getVal (internalPromisifyAll
        (classFold sfx none none m o (inheritedDataKeys o)) sfx none none m) key
        = getVal (classFold sfx none none m o (inheritedDataKeys o)) key := by
      unfold getVal
      rw [findProp_IPA_ne _ sfx none none m hnotsfx]
    by_cases hmemO : key ∈ inheritedDataKeys o
    case neg =>
      exfalso
      apply hmemO
      rw [mem_inheritedDataKeys]
      rw [mem_inheritedDataKeys] at hkey
      rw [← classFold_findProp_notmem sfx none none m (inheritedDataKeys o) o hmemO,
        ← findProp_IPA_ne _ sfx none none m hnotsfx]
      exact hkey
    case pos =>
      have hchar := classFold_getVal sfx none none m (inheritedDataKeys o) o
        (nodup_inheritedDataKeys o) hmemO
      by_cases hc0 : (key != "constructor" && isClass (getVal o key)) = true
      · rw [if_pos hc0] at hchar
        have hfix : convertClass (getVal (internalPromisifyAll
            (classFold sfx none none m o (inheritedDataKeys o)) sfx none none m) key)
            sfx none none m
            = getVal (internalPromisifyAll
              (classFold sfx none none m o (inheritedDataKeys o)) sfx none none m)
              key := by
          rw [hgv, hchar, convertClass_idem]
        rw [hfix]
        obtain ⟨p, hp, _⟩ := (mem_inheritedDataKeys _ key).mp hkey
        have hpv : getVal (internalPromisifyAll
            (classFold sfx none none m o (inheritedDataKeys o)) sfx none none m) key
            = p.2 := by
          unfold getVal
          rw [hp]
        rw [hpv]
        exact updateVal_self _ hp
      · exfalso
        rw [if_neg hc0] at hchar
        rw [hgv, hchar] at hc
        exact hc0 hc

/-! ## Claim theorems -/

/-- C1 (counterexample): the injected completion callback does not reject for
every non-null, non-undefined error argument.  The error value `false` is
neither null nor undefined, yet the resolver resolves (the source tests
`err ?`, i.e. truthiness, at lines 85 and 88) in both `multiArgs` modes. -/
theorem createResolver_defined_falsy_error_not_rejected :
    BVal.boolV false ≠ BVal.nullV ∧ BVal.boolV false ≠ BVal.undefV ∧
    createResolver false (BVal.boolV false) [BVal.numV 7]
      = SettleAction.resolveA (BVal.numV 7) ∧
    createResolver true (BVal.boolV false) [BVal.numV 7]
      = SettleAction.resolveAllA [BVal.numV 7] :=
  ⟨by decide, by decide, rfl, rfl⟩

/-- C1 (amended): the injected completion callback settles the future by the
truthiness of its error argument: a truthy error rejects the future with
exactly that error and all other values are ignored; with a falsy error and
`multiArgs` false the future resolves with the first value only; with a falsy
error and `multiArgs` true it resolves with the ordered sequence of all
values through the future system's array-combination primitive. -/
theorem createResolver_settles_by_truthiness (multiArgs : Bool) (err : BVal)
    (values : List BVal) :
    (truthy err = true → createResolver multiArgs err values = .rejectA err) ∧
    (truthy err = false → multiArgs = false →
      createResolver multiArgs err values = .resolveA (values.headD .undefV)) ∧
    (truthy err = false → multiArgs = true →
      createResolver multiArgs err values = .resolveAllA values) := by
  refine ⟨fun h => ?_, fun h hm => ?_, fun h hm => ?_⟩
  · cases multiArgs <;> simp [createResolver, h]
  · subst hm; simp [createResolver, h]
  · subst hm; simp [createResolver, h]

/-- C1 (witness): the amended theorem at concrete inputs. -/
theorem createResolver_settles_by_truthiness_witness :
    truthy (BVal.objRef 3) = true ∧
    createResolver false (BVal.objRef 3) [BVal.numV 1] = .rejectA (BVal.objRef 3) ∧
    truthy BVal.nullV = false ∧
    createResolver true BVal.nullV [BVal.numV 1, BVal.numV 2]
      = .resolveAllA [BVal.numV 1, BVal.numV 2] :=
  ⟨by decide,
   (createResolver_settles_by_truthiness false (BVal.objRef 3) [BVal.numV 1]).1
     (by decide),
   by decide,
   (createResolver_settles_by_truthiness true BVal.nullV
     [BVal.numV 1, BVal.numV 2]).2.2 (by decide) rfl⟩

/-- C2 (code evaluated at the failing input): an adapted function built with
the default `USE_THIS` sentinel applies the wrapped function under the FIRST
invocation's receiver on every later invocation — `context = this` (line 63)
permanently overwrites the closure variable — so the second call, made
through receiver 2, still runs the wrapped function under receiver 1. -/
theorem promisified_second_call_keeps_first_receiver :
    promisifiedCalls (fun _ _ => BVal.undefV) none ⟨BVal.fnRef 9, CtxV.useThis⟩
        [BVal.objRef 1, BVal.objRef 2]
      = [⟨BVal.fnRef 9, BVal.objRef 1⟩, ⟨BVal.fnRef 9, BVal.objRef 1⟩] ∧
    BVal.objRef 1 ≠ BVal.objRef 2 :=
  ⟨by decide, by decide⟩

/-- C4 (code evaluated at the failing input): a bulk-installed adapter with
`dynamicLookupKey = "m"` does re-read `context["m"]` on every call, but
`context` is the closure variable frozen to the first invocation's receiver;
after receiver 2 overrides `m` with function 22, invoking the adapter through
receiver 2 still dispatches to receiver 1's function 11. -/
theorem promisified_dynamic_lookup_uses_stale_context :
    promisifiedCalls
        (fun r k => if r = BVal.objRef 1 ∧ k = "m" then BVal.fnRef 11
          else if r = BVal.objRef 2 ∧ k = "m" then BVal.fnRef 22 else BVal.undefV)
        (some "m") ⟨BVal.fnRef 11, CtxV.useThis⟩ [BVal.objRef 1, BVal.objRef 2]
      = [⟨BVal.fnRef 11, BVal.objRef 1⟩, ⟨BVal.fnRef 11, BVal.objRef 1⟩] ∧
    BVal.fnRef 22 ≠ BVal.fnRef 11 :=
  ⟨by decide, by decide⟩

/-- C3 (code evaluated at the failing input): `shouldPromisify` itself treats
a supplied filter's verdict as authoritative (first conjunct), but
`internalPromisifyAll` calls `getFunctionsToPromisify(obj, suffix)` without
forwarding the filter (line 40), so `promisifyAll` with a filter that rejects
every key still installs `mAsync` (second conjunct). -/
theorem promisifyAll_ignores_caller_filter :
    shouldPromisify "m" "Async" demoObj (some fun _ _ _ _ => false) = false ∧
    promisifyAll demoObj "Async" (some fun _ _ _ _ => false) none false
      = .ok (demoObj1, JVal.undefV) :=
  ⟨rfl, rfl⟩

/-- C5: `promisifyAll` with the default options and a fixed suffix is
idempotent: if the first call produces an object, a second call on that
object returns it unchanged (it installs nothing and performs no mutation).
Moreover a function already carrying the marker is skipped, and a key whose
`key + suffix` own sibling is a marked function or an accessor is skipped. -/
theorem promisifyAll_idempotent :
    (∀ (o o₁ : JObj) (sfx : String) (m : Bool) (r : JVal),
      promisifyAll o sfx none none m = .ok (o₁, r) →
      promisifyAll o₁ sfx none none m = .ok (o₁, JVal.undefV)) ∧
    (∀ (o : JObj) (key sfx : String),
      isPromisified (getVal o key) = true → shouldPromisify key sfx o none = false) ∧
    (∀ (o : JObj) (key sfx : String),
      hasPromisified o key sfx = true → shouldPromisify key sfx o none = false) := by
  refine ⟨?_, ?_, ?_⟩
  · intro o o₁ sfx m r h
    by_cases hid : isIdentifier sfx
    · simp only [promisifyAll, hid, Bool.not_true, Bool.false_eq_true, if_false,
        Except.ok.injEq, Prod.mk.injEq] at h ⊢
      obtain ⟨ho, _⟩ := h
      rw [← ho]
      have hfix : classFold sfx none none m
          (internalPromisifyAll (classFold sfx none none m o (inheritedDataKeys o))
            sfx none none m)
          (inheritedDataKeys (internalPromisifyAll
            (classFold sfx none none m o (inheritedDataKeys o)) sfx none none m))
          = internalPromisifyAll (classFold sfx none none m o (inheritedDataKeys o))
              sfx none none m :=
        foldl_fixed _ _ _ (classStep_fix_after o sfx m)
      rw [hfix, IPA_idem]
      exact ⟨rfl, trivial⟩
    · exfalso
      simp [promisifyAll, hid] at h
  · intro o key sfx h
    exact shouldPromisify_of_marked h
  · intro o key sfx h
    exact shouldPromisify_of_hasPromisified h

/-- C5 (witness): a second `promisifyAll` pass on the converted `demoObj1` is
the identity, obtained by applying the idempotence theorem to the first pass
on `demoObj`. -/
theorem promisifyAll_idempotent_witness :
    promisifyAll demoObj1 "Async" none none false = .ok (demoObj1, JVal.undefV) :=
  promisifyAll_idempotent.1 demoObj demoObj1 "Async" false JVal.undefV rfl

/-- C6: in the class pass of `promisifyAll`, the value at a candidate key is
recursed into — its prototype and its own statics bulk-converted through
`convertClass` with the caller's suffix, filter and promisifier — exactly
when the key is not `constructor` and `isClass` holds (first conjunct);
a function whose `prototype` is undefined, where own-name enumeration throws,
is never class-like (second conjunct); and the bulk converter always builds
its adapters with the `USE_THIS` context and the candidate key as
dynamic-lookup key, whatever context the caller supplied (third conjunct). -/
theorem promisifyAll_class_recursion (o : JObj) (sfx : String) (f : Option FilterT)
    (pm : Option PromisifierT) (m : Bool) :
    (∀ key ∈ inheritedDataKeys o,
      getVal (classFold sfx f pm m o (inheritedDataKeys o)) key
        = if key != "constructor" && isClass (getVal o key)
          then convertClass (getVal o key) sfx f pm m else getVal o key) ∧
    (∀ (mk : Bool) (id : Nat) (st : JObj) (ta : Bool),
      isClass (JVal.fn mk id none st ta) = false) ∧
    (∀ (o' : JObj) (k : String), k ∈ getFunctionsToPromisify o' sfx none →
      lookupA (internalPromisifyAll o' sfx f none m).own (k ++ sfx)
        = some (false, JVal.adapterFn true (some k) m)) := by
  refine ⟨?_, ?_, ?_⟩
  · intro key hk
    exact classFold_getVal sfx f pm m (inheritedDataKeys o) o
      (nodup_inheritedDataKeys o) hk
  · intro _ _ _ _
    rfl
  · intro o' k hk
    exact IPA_own_lookup_self o' sfx f m hk

/-- C6 (witness): on `classDemo`, the class-like `classFn` at key `K` is
recursed into while the plain function at key `u` is left alone. -/
theorem promisifyAll_class_recursion_witness :
    getVal (classFold "Async" none none false classDemo (inheritedDataKeys classDemo))
        "K" = convertClass (getVal classDemo "K") "Async" none none false ∧
    getVal (classFold "Async" none none false classDemo (inheritedDataKeys classDemo))
        "u" = getVal classDemo "u" := by
  constructor
  · have h := (promisifyAll_class_recursion classDemo "Async" none none false).1
      "K" (by decide)
    rw [h, if_pos (by decide)]
  · have h := (promisifyAll_class_recursion classDemo "Async" none none false).1
      "u" (by decide)
    rw [h, if_neg (by decide)]

/-- C7: chain key discovery returns each name at most once; a name is a
candidate iff its closest-link descriptor is a non-accessor (an accessor is
recorded as visited but excluded, and no deeper link is ever reconsidered);
consequently bulk-converting `derivedDemo`, whose base link also owns `m`,
discovers `m` once, the candidate reflects the derived `m`, and exactly one
`mAsync` is installed. -/
theorem inheritedDataKeys_closest_link (o : JObj) (k : String) :
    (inheritedDataKeys o).Nodup ∧
    (k ∈ inheritedDataKeys o ↔ ∃ p, findProp o k = some p ∧ p.1 = false) ∧
    inheritedDataKeys derivedDemo = ["m"] ∧
    getVal derivedDemo "m" = fnDerived ∧
    internalPromisifyAll derivedDemo "Async" none none false
      = .mk [("m", (false, fnDerived)),
             ("mAsync", (false, JVal.adapterFn true (some "m") false))]
          [[("m", (false, fnBase))]] :=
  ⟨nodup_inheritedDataKeys o, mem_inheritedDataKeys o k, rfl, rfl, rfl⟩

/-- C8 (code evaluated at the failing input): an invalid suffix raises the
range error synchronously, before any mutation; but with a valid suffix
`promisifyAll` evaluates to undefined — `internalPromisifyAll` has no return
statement — rather than to the target object. -/
theorem promisifyAll_returns_undefined :
    promisifyAll emptyO "1bad" none none false
      = .error (.rangeError
          "The suffix should be a string matching [a-z$_][a-z$_0-9]*") ∧
    promisifyAll demoObj "Async" none none false = .ok (demoObj1, JVal.undefV) ∧
    (∀ o : JObj, JVal.undefV ≠ JVal.objV o) :=
  ⟨rfl, rfl, fun _ h => JVal.noConfusion h⟩

/-- C9 (counterexample): a pre-existing own data property at `mAsync` (value
42, carrying no marker) is overwritten by the installed adapter: bulk
conversion does alter an existing property that sits at `key + suffix`. -/
theorem promisifyAll_overwrites_unmarked_sibling :
    lookupA overwriteDemo.own "mAsync" = some (false, JVal.prim 42) ∧
    promisifyAll overwriteDemo "Async" none none false
      = .ok (.mk [("m", (false, JVal.fn false 1 none emptyO false)),
                  ("mAsync", (false, JVal.adapterFn true (some "m") false))] [],
          JVal.undefV) ∧
    JVal.prim 42 ≠ JVal.adapterFn true (some "m") false :=
  ⟨rfl, rfl, fun h => JVal.noConfusion h⟩

/-- C9 (amended): bulk installation writes own properties only at the names
`key + suffix` of the keys it converts: the chain links are untouched, no own
property is removed, and every own property at any other name keeps its
descriptor; a pre-existing own non-accessor unmarked property at such a
`key + suffix` name is, however, overwritten by the installed adapter. -/
theorem internalPromisifyAll_frame (o : JObj) (sfx : String) (f : Option FilterT)
    (pm : Option PromisifierT) (m : Bool) (n : String) :
    (internalPromisifyAll o sfx f pm m).chain = o.chain ∧
    ((lookupA o.own n).isSome = true →
      (lookupA (internalPromisifyAll o sfx f pm m).own n).isSome = true) ∧
    ((∀ k ∈ getFunctionsToPromisify o sfx none, n ≠ k ++ sfx) →
      lookupA (internalPromisifyAll o sfx f pm m).own n = lookupA o.own n) := by
  refine ⟨IPA_chain o sfx f pm m, ?_, ?_⟩
  · exact ipaFold_own_isSome sfx pm m _ o n
  · exact IPA_own_lookup_ne o sfx f pm m

/-- C9 (amended, witness): the frame theorem applied to `overwriteDemo` at
the untouched name `m`. -/
theorem internalPromisifyAll_frame_witness :
    (internalPromisifyAll overwriteDemo "Async" none none false).chain
        = overwriteDemo.chain ∧
    (lookupA (internalPromisifyAll overwriteDemo "Async" none none false).own
        "m").isSome = true ∧
    lookupA (internalPromisifyAll overwriteDemo "Async" none none false).own "m"
      = lookupA overwriteDemo.own "m" :=
  ⟨(internalPromisifyAll_frame overwriteDemo "Async" none none false "m").1,
   (internalPromisifyAll_frame overwriteDemo "Async" none none false "m").2.1
     (by decide),
   (internalPromisifyAll_frame overwriteDemo "Async" none none false "m").2.2
     (by decide)⟩

/-- C10: if the wrapped function throws synchronously during the adapted
call, the exception propagates synchronously out of the call and the outcome
is not a future of any kind (the future is in particular not rejected with
the exception).  The Bluebird constructor is modelled from the spec
(`bluebirdNew`): it runs its executor synchronously without catching. -/
theorem promisified_sync_throw_propagates (getProp : BVal → String → BVal)
    (dlk : Option String) (applyFn : BVal → BVal → FnResult) (c : Closure)
    (thisV : BVal) (e : BVal)
    (h : applyFn (promisifiedCall getProp dlk c thisV).2.appliedFn
        (promisifiedCall getProp dlk c thisV).2.appliedThis = .thrown e) :
    (promisifiedCallRun getProp dlk applyFn c thisV).2 = CallOutcome.thrownOut e ∧
    ∀ fn th, (promisifiedCallRun getProp dlk applyFn c thisV).2
      ≠ CallOutcome.pendingFuture fn th := by
  refine ⟨?_, fun fn th => ?_⟩ <;> simp [promisifiedCallRun, bluebirdNew, h]

/-- C10 (witness): a wrapped function that always throws `"boom"` makes the
adapted call propagate the exception synchronously. -/
theorem promisified_sync_throw_propagates_witness :
    (promisifiedCallRun (fun _ _ => BVal.undefV) none
        (fun _ _ => FnResult.thrown (BVal.strV "boom"))
        ⟨BVal.fnRef 1, CtxV.useThis⟩ (BVal.objRef 1)).2
      = CallOutcome.thrownOut (BVal.strV "boom") :=
  (promisified_sync_throw_propagates (fun _ _ => BVal.undefV) none
    (fun _ _ => FnResult.thrown (BVal.strV "boom"))
    ⟨BVal.fnRef 1, CtxV.useThis⟩ (BVal.objRef 1) (BVal.strV "boom") rfl).1

end Promisify
